import Mathlib

/-!
Verification of the synchronized fixed-capacity table in `src/program.c`
(a simplified LSM-tree memtable with thread-safe add and get).

The C core is embedded shallowly:

* `Entry` mirrors the C `Entry` struct (`key`, `value`, `in_use`); the
  C `int` flag `in_use` is only ever 0 or 1 and only tested for truth,
  so it is a `Bool` here.
* `LSMTree` mirrors the C `LSMTree` struct.  The backing array
  `memtable` is a `List Entry` whose length is the allocation size;
  `memtable_max` and `memtable_count` are the capacity and count fields.
  The pthread read-write lock has no sequential content and is not part
  of the state.
* `lsm_init` models `lsm_init`: `malloc` leaves the slots' `key` and
  `value` fields uninitialized, so the allocation is modelled as an
  arbitrary list `mem0` whose `in_use` flags are then cleared by the
  initialization loop; the capacity is the allocation's length.
* `lsm_add` models `lsm_add`.  Both C loops scan the first
  `memtable_count` slots in index order for the first slot with
  `in_use && key == k`; that scan is the function `scan` below, applied
  to `memtable.take memtable_count`.  `lsm_add` returns the new tree
  paired with a `Bool` that is `true` exactly when the C code prints
  the "Memtable full, cannot add key %d" diagnostic to stderr — the
  observable rejection signal (the C function itself returns `void`).
* `lsm_get` models `lsm_get`: it takes the value currently stored at
  the caller's `out_value` location and returns the C result `found`
  paired with the contents of that location after the call (`*out_value`
  is written only when a match is found).
-/

structure Entry where
  key : Int
  value : Int
  in_use : Bool
deriving DecidableEq, Repr

structure LSMTree where
  memtable : List Entry
  memtable_max : Nat
  memtable_count : Nat
deriving DecidableEq, Repr

/-- The linear scan shared by `lsm_add` and `lsm_get`: on the list of
slots it is applied to, return the index and contents of the first slot
with `in_use` set and a matching key, or `none` if no slot matches. -/
def scan : List Entry → Int → Option (Nat × Entry)
  | [], _ => none
  | e :: rest, key =>
    if e.in_use && e.key == key then some (0, e)
    else (scan rest key).map fun p => (p.1 + 1, p.2)

/-- `memtable[i].value = value`: overwrite the `value` field of slot `i`,
leaving every other slot and the other fields of slot `i` unchanged. -/
def upd_value : List Entry → Nat → Int → List Entry
  | [], _, _ => []
  | e :: rest, 0, v => { e with value := v } :: rest
  | e :: rest, i + 1, v => e :: upd_value rest i v

/-- `lsm_init` from `src/program.c`: `mem0` stands for the freshly
`malloc`ed array (uninitialized contents, length = `max_entries`); the
loop clears every `in_use` flag and the count starts at 0. -/
def lsm_init (mem0 : List Entry) : LSMTree :=
  { memtable := mem0.map fun e => { e with in_use := false }
    memtable_max := mem0.length
    memtable_count := 0 }

/-- `lsm_add` from `src/program.c`.  The returned `Bool` is `true` iff
the "Memtable full" stderr diagnostic is emitted (the rejection signal). -/
def lsm_add (tree : LSMTree) (key value : Int) : LSMTree × Bool :=
  match scan (tree.memtable.take tree.memtable_count) key with
  | some (i, _) =>
    ({ tree with memtable := upd_value tree.memtable i value }, false)
  | none =>
    if tree.memtable_count < tree.memtable_max then
      ({ tree with
          memtable :=
            tree.memtable.set tree.memtable_count
              { key := key, value := value, in_use := true }
          memtable_count := tree.memtable_count + 1 }, false)
    else
      (tree, true)

/-- `lsm_get` from `src/program.c`.  `out_value` is the value at the
caller's output location before the call; the second component of the
result is its value after the call (written only on a hit). -/
def lsm_get (tree : LSMTree) (key : Int) (out_value : Int) : Bool × Int :=
  match scan (tree.memtable.take tree.memtable_count) key with
  | some (_, e) => (true, e.value)
  | none => (false, out_value)

/-- Whether slot `i` of the table is a live entry for `key`
(the loop condition `memtable[i].in_use && memtable[i].key == key`). -/
def matchAt (tree : LSMTree) (key : Int) (i : Nat) : Bool :=
  match tree.memtable[i]? with
  | some e => e.in_use && e.key == key
  | none => false

/-- A sequence of `lsm_add` calls, applied in order. -/
def run (t : LSMTree) : List (Int × Int) → LSMTree
  | [] => t
  | op :: ops => run (lsm_add t op.1 op.2).fst ops

/-- The table invariant from the specification (§3): the backing array
has exactly `memtable_max` slots, `memtable_count ≤ memtable_max`, a
slot is `in_use` exactly when its index is below `memtable_count`, and
the keys of the occupied slots are pairwise distinct. -/
def tableInv (t : LSMTree) : Prop :=
  t.memtable.length = t.memtable_max ∧
  t.memtable_count ≤ t.memtable_max ∧
  (∀ i e, t.memtable[i]? = some e → (i < t.memtable_count ↔ e.in_use = true)) ∧
  (∀ i j e f, t.memtable[i]? = some e → t.memtable[j]? = some f →
    i < t.memtable_count → j < t.memtable_count → e.key = f.key → i = j)

/-- The example scenario's table: `lsm_init` with capacity 2 (the two
slots of the fresh allocation carry arbitrary garbage). -/
def demo0 : LSMTree := lsm_init [⟨5, 6, true⟩, ⟨8, 9, true⟩]

/-- `upsert(1, 10)` on the fresh table. -/
def demo1 : LSMTree × Bool := lsm_add demo0 1 10

/-- then `upsert(2, 20)`. -/
def demo2 : LSMTree × Bool := lsm_add demo1.fst 2 20

/-- then `upsert(3, 30)` on the now-full table. -/
def demo3 : LSMTree × Bool := lsm_add demo2.fst 3 30

/-- A concrete full table (capacity 2, keys 1 and 2) used to instantiate
the general theorems at a specific state. -/
def sample_full : LSMTree := ⟨[⟨1, 10, true⟩, ⟨2, 20, true⟩], 2, 2⟩

/-- A concrete partly-filled table (capacity 2, one entry with key 1)
used to instantiate the general theorems at a specific state. -/
def sample_half : LSMTree := ⟨[⟨1, 10, true⟩, ⟨0, 0, false⟩], 2, 1⟩

/-! ### Basic lemmas about the scan and the slot update -/

lemma scan_eq_some {l : List Entry} {key : Int} {i : Nat} {f : Entry}
    (h : scan l key = some (i, f)) :
    l[i]? = some f ∧ (f.in_use && f.key == key) = true ∧
      ∀ (j : Nat) (e : Entry), j < i → l[j]? = some e →
        (e.in_use && e.key == key) = false := by
  induction l generalizing i with
  | nil => simp [scan] at h
  | cons a rest ih =>
    cases ha : (a.in_use && a.key == key) with
    | true =>
      simp [scan, ha] at h
      obtain ⟨hi, hf⟩ := h
      subst hi
      subst hf
      refine ⟨by simp, ha, ?_⟩
      intro j e hj _
      exact absurd hj (Nat.not_lt_zero j)
    | false =>
      simp only [scan, ha, Bool.false_eq_true, if_false,
        Option.map_eq_some'] at h
      obtain ⟨⟨k, g⟩, hk, hpair⟩ := h
      simp only [Prod.mk.injEq] at hpair
      obtain ⟨hi, hg⟩ := hpair
      subst hg
      subst hi
      obtain ⟨h1, h2, h3⟩ := ih hk
      refine ⟨by simpa using h1, h2, ?_⟩
      intro j e hj hje
      match j, hj, hje with
      | 0, _, hje =>
        simp only [List.getElem?_cons_zero, Option.some_inj] at hje
        rw [← hje]
        exact ha
      | j + 1, hj, hje =>
        exact h3 j e (Nat.lt_of_succ_lt_succ hj) (by simpa using hje)

lemma scan_first {l : List Entry} {key : Int} {i : Nat} {f : Entry}
    (hf : l[i]? = some f) (hm : (f.in_use && f.key == key) = true)
    (hfirst : ∀ (j : Nat) (e : Entry), j < i → l[j]? = some e →
      (e.in_use && e.key == key) = false) :
    scan l key = some (i, f) := by
  induction l generalizing i with
  | nil => simp at hf
  | cons a rest ih =>
    match i, hf, hfirst with
    | 0, hf, _ =>
      simp only [List.getElem?_cons_zero, Option.some_inj] at hf
      subst hf
      simp [scan, hm]
    | i + 1, hf, hfirst =>
      have ha : (a.in_use && a.key == key) = false :=
        hfirst 0 a (Nat.succ_pos i) (by simp)
      have hrest : scan rest key = some (i, f) := by
        refine ih (by simpa using hf) ?_
        intro j e hj hje
        exact hfirst (j + 1) e (Nat.succ_lt_succ hj) (by simpa using hje)
      simp [scan, ha, hrest]

lemma scan_eq_none_iff (l : List Entry) (key : Int) :
    scan l key = none ↔
      ∀ (j : Nat) (e : Entry), l[j]? = some e →
        (e.in_use && e.key == key) = false := by
  induction l with
  | nil => simp [scan]
  | cons a rest ih =>
    cases ha : (a.in_use && a.key == key) with
    | true =>
      constructor
      · intro h
        simp [scan, ha] at h
      · intro hall
        have h0 := hall 0 a (by simp)
        rw [h0] at ha
        simp at ha
    | false =>
      simp only [scan, ha, Bool.false_eq_true, if_false, Option.map_eq_none']
      rw [ih]
      constructor
      · intro h j e hje
        match j, hje with
        | 0, hje =>
          simp only [List.getElem?_cons_zero, Option.some_inj] at hje
          rw [← hje]
          exact ha
        | j + 1, hje =>
          exact h j e (by simpa using hje)
      · intro h j e hje
        exact h (j + 1) e (by simpa using hje)

lemma length_upd_value (l : List Entry) (i : Nat) (v : Int) :
    (upd_value l i v).length = l.length := by
  induction l generalizing i with
  | nil => rfl
  | cons a rest ih =>
    cases i with
    | zero => rfl
    | succ i => simp [upd_value, ih]

lemma getElem?_upd_value_self {l : List Entry} {i : Nat} (v : Int) {e : Entry}
    (h : l[i]? = some e) :
    (upd_value l i v)[i]? = some { e with value := v } := by
  induction l generalizing i with
  | nil => simp at h
  | cons a rest ih =>
    cases i with
    | zero =>
      simp only [List.getElem?_cons_zero, Option.some_inj] at h
      subst h
      simp [upd_value]
    | succ i =>
      simpa [upd_value] using ih (by simpa using h)

lemma getElem?_upd_value_ne (l : List Entry) {i : Nat} (j : Nat) (v : Int)
    (h : j ≠ i) : (upd_value l i v)[j]? = l[j]? := by
  induction l generalizing i j with
  | nil => rfl
  | cons a rest ih =>
    cases i with
    | zero =>
      cases j with
      | zero => exact absurd rfl h
      | succ j => simp [upd_value]
    | succ i =>
      cases j with
      | zero => simp [upd_value]
      | succ j =>
        simpa [upd_value] using ih j (fun hc => h (by rw [hc]))

lemma getElem?_take_some {l : List Entry} {n j : Nat} {e : Entry}
    (h : (l.take n)[j]? = some e) : j < n ∧ l[j]? = some e := by
  have hj : j < (l.take n).length := by
    by_contra hc
    push_neg at hc
    rw [List.getElem?_eq_none hc] at h
    exact Option.noConfusion h
  rw [List.length_take] at hj
  have hjn : j < n := lt_of_lt_of_le hj (min_le_left _ _)
  refine ⟨hjn, ?_⟩
  rw [← List.getElem?_take_of_lt hjn]
  exact h

lemma matchAt_eq_true {t : LSMTree} {key : Int} {i : Nat}
    (h : matchAt t key i = true) :
    ∃ e, t.memtable[i]? = some e ∧ (e.in_use && e.key == key) = true := by
  unfold matchAt at h
  cases he : t.memtable[i]? with
  | none => rw [he] at h; exact Bool.noConfusion h
  | some e => rw [he] at h; exact ⟨e, rfl, h⟩

lemma matchAt_eq_false {t : LSMTree} {key : Int} {i : Nat} {e : Entry}
    (h : matchAt t key i = false) (he : t.memtable[i]? = some e) :
    (e.in_use && e.key == key) = false := by
  unfold matchAt at h
  rw [he] at h
  exact h

lemma scan_take_eq_none_iff (t : LSMTree) (key : Int) :
    scan (t.memtable.take t.memtable_count) key = none ↔
      ∀ i, i < t.memtable_count → matchAt t key i = false := by
  rw [scan_eq_none_iff]
  constructor
  · intro h i hi
    unfold matchAt
    cases he : t.memtable[i]? with
    | none => rfl
    | some e =>
      refine h i e ?_
      rw [List.getElem?_take_of_lt hi]
      exact he
  · intro h j e hje
    obtain ⟨hj, hje'⟩ := getElem?_take_some hje
    exact matchAt_eq_false (h j hj) hje'

/-! ### Case equations for the two operations -/

lemma lsm_add_of_scan_some {t : LSMTree} {key : Int} {i : Nat} {e : Entry}
    (value : Int)
    (h : scan (t.memtable.take t.memtable_count) key = some (i, e)) :
    lsm_add t key value =
      ({ t with memtable := upd_value t.memtable i value }, false) := by
  unfold lsm_add
  rw [h]

lemma lsm_add_of_scan_none_lt {t : LSMTree} {key : Int} (value : Int)
    (h : scan (t.memtable.take t.memtable_count) key = none)
    (hlt : t.memtable_count < t.memtable_max) :
    lsm_add t key value =
      ({ t with
          memtable :=
            t.memtable.set t.memtable_count
              { key := key, value := value, in_use := true }
          memtable_count := t.memtable_count + 1 }, false) := by
  unfold lsm_add
  rw [h, if_pos hlt]

lemma lsm_add_of_scan_none_full {t : LSMTree} {key : Int} (value : Int)
    (h : scan (t.memtable.take t.memtable_count) key = none)
    (hge : ¬ t.memtable_count < t.memtable_max) :
    lsm_add t key value = (t, true) := by
  unfold lsm_add
  rw [h, if_neg hge]

lemma lsm_get_of_scan_some {t : LSMTree} {key : Int} {i : Nat} {e : Entry}
    (out : Int)
    (h : scan (t.memtable.take t.memtable_count) key = some (i, e)) :
    lsm_get t key out = (true, e.value) := by
  unfold lsm_get
  rw [h]

lemma lsm_get_of_scan_none {t : LSMTree} {key : Int} (out : Int)
    (h : scan (t.memtable.take t.memtable_count) key = none) :
    lsm_get t key out = (false, out) := by
  unfold lsm_get
  rw [h]

lemma cond_true_elim {e : Entry} {key : Int}
    (h : (e.in_use && e.key == key) = true) :
    e.in_use = true ∧ e.key = key := by
  simpa using h

lemma cond_false_elim {e : Entry} {key : Int}
    (h : (e.in_use && e.key == key) = false) (hin : e.in_use = true) :
    e.key ≠ key := by
  simp [hin] at h
  exact h

lemma scan_take_eq_some_of_first {t : LSMTree} {key : Int} {i : Nat}
    {e : Entry} (hi : i < t.memtable_count)
    (he : t.memtable[i]? = some e)
    (hcond : (e.in_use && e.key == key) = true)
    (hfirst : ∀ j, j < i → matchAt t key j = false) :
    scan (t.memtable.take t.memtable_count) key = some (i, e) := by
  apply scan_first
  · rw [List.getElem?_take_of_lt hi]
    exact he
  · exact hcond
  · intro j f hj hjf
    obtain ⟨-, hjf'⟩ := getElem?_take_some hjf
    exact matchAt_eq_false (hfirst j hj) hjf'

lemma getElem?_upd_value_some {l : List Entry} {i j : Nat} {v : Int}
    {f : Entry} (h : (upd_value l i v)[j]? = some f) :
    ∃ e, l[j]? = some e ∧ f.key = e.key ∧ f.in_use = e.in_use := by
  by_cases hji : j = i
  · subst hji
    cases he : l[j]? with
    | none =>
      have hlen : l.length ≤ j := by
        by_contra hc
        push_neg at hc
        rw [List.getElem?_eq_getElem hc] at he
        exact Option.noConfusion he
      rw [List.getElem?_eq_none (by rw [length_upd_value]; exact hlen)] at h
      exact Option.noConfusion h
    | some e =>
      rw [getElem?_upd_value_self v he] at h
      have hf : f = { e with value := v } := by simpa using h.symm
      subst hf
      exact ⟨e, rfl, rfl, rfl⟩
  · rw [getElem?_upd_value_ne _ j v hji] at h
    exact ⟨f, h, rfl, rfl⟩

/-! ### The table invariant holds initially and is preserved -/

lemma tableInv_init (mem0 : List Entry) : tableInv (lsm_init mem0) := by
  refine ⟨by simp [lsm_init], Nat.zero_le _, ?_, ?_⟩
  · intro i e he
    constructor
    · intro hi
      exact absurd hi (Nat.not_lt_zero i)
    · intro hin
      exfalso
      unfold lsm_init at he
      rw [List.getElem?_map] at he
      cases hm : mem0[i]? with
      | none => rw [hm] at he; exact Option.noConfusion he
      | some a =>
        rw [hm] at he
        have : e = { a with in_use := false } := by simpa using he.symm
        rw [this] at hin
        exact Bool.noConfusion hin
  · intro i j e f _ _ hi _
    exact absurd hi (Nat.not_lt_zero i)

lemma tableInv_add (t : LSMTree) (key value : Int) (h : tableInv t) :
    tableInv (lsm_add t key value).fst := by
  obtain ⟨hlen, hcnt, hocc, hdist⟩ := h
  cases hs : scan (t.memtable.take t.memtable_count) key with
  | some p =>
    obtain ⟨i, e⟩ := p
    obtain ⟨hie, hcond, -⟩ := scan_eq_some hs
    obtain ⟨hi, hie'⟩ := getElem?_take_some hie
    rw [lsm_add_of_scan_some value hs]
    refine ⟨by rw [length_upd_value]; exact hlen, hcnt, ?_, ?_⟩
    · intro j f hjf
      by_cases hji : j = i
      · subst hji
        rw [getElem?_upd_value_self value hie'] at hjf
        have hf : f = { e with value := value } := by simpa using hjf.symm
        subst hf
        simpa using hocc j e hie'
      · rw [getElem?_upd_value_ne _ j value hji] at hjf
        exact hocc j f hjf
    · intro a b f g haf hbg ha hb hkeq
      obtain ⟨f', hf', hfk, -⟩ := getElem?_upd_value_some haf
      obtain ⟨g', hg', hgk, -⟩ := getElem?_upd_value_some hbg
      exact hdist a b f' g' hf' hg' ha hb (by rw [← hfk, ← hgk]; exact hkeq)
  | none =>
    by_cases hlt : t.memtable_count < t.memtable_max
    · rw [lsm_add_of_scan_none_lt value hs hlt]
      have hcl : t.memtable_count < t.memtable.length := by
        rw [hlen]; exact hlt
      refine ⟨by rw [List.length_set]; exact hlen, Nat.succ_le_of_lt hlt,
        ?_, ?_⟩
      · intro j f hjf
        by_cases hjc : j = t.memtable_count
        · subst hjc
          rw [List.getElem?_set_eq_of_lt _ hcl] at hjf
          have hf : f = { key := key, value := value, in_use := true } := by
            simpa using hjf.symm
          subst hf
          simp [Nat.lt_succ_self]
        · rw [List.getElem?_set_ne (Ne.symm hjc)] at hjf
          have hj := hocc j f hjf
          constructor
          · intro hjlt
            exact hj.mp (Nat.lt_of_le_of_ne (Nat.le_of_lt_succ hjlt) hjc)
          · intro hin
            exact Nat.lt_succ_of_lt (hj.mpr hin)
      · intro a b f g haf hbg ha hb hkeq
        by_cases hac : a = t.memtable_count <;>
          by_cases hbc : b = t.memtable_count
        · rw [hac, hbc]
        · exfalso
          subst hac
          rw [List.getElem?_set_eq_of_lt _ hcl] at haf
          have hf : f = { key := key, value := value, in_use := true } := by
            simpa using haf.symm
          have hblt : b < t.memtable_count :=
            Nat.lt_of_le_of_ne (Nat.le_of_lt_succ hb) hbc
          rw [List.getElem?_set_ne (Ne.symm hbc)] at hbg
          have hgin : g.in_use = true := (hocc b g hbg).mp hblt
          have hgne : g.key ≠ key :=
            cond_false_elim
              ((scan_eq_none_iff _ _).mp hs b g
                (by rw [List.getElem?_take_of_lt hblt]; exact hbg)) hgin
          apply hgne
          rw [← hkeq, hf]
        · exfalso
          subst hbc
          rw [List.getElem?_set_eq_of_lt _ hcl] at hbg
          have hg : g = { key := key, value := value, in_use := true } := by
            simpa using hbg.symm
          have halt : a < t.memtable_count :=
            Nat.lt_of_le_of_ne (Nat.le_of_lt_succ ha) hac
          rw [List.getElem?_set_ne (Ne.symm hac)] at haf
          have hfin : f.in_use = true := (hocc a f haf).mp halt
          have hfne : f.key ≠ key :=
            cond_false_elim
              ((scan_eq_none_iff _ _).mp hs a f
                (by rw [List.getElem?_take_of_lt halt]; exact haf)) hfin
          apply hfne
          rw [hkeq, hg]
        · have halt : a < t.memtable_count :=
            Nat.lt_of_le_of_ne (Nat.le_of_lt_succ ha) hac
          have hblt : b < t.memtable_count :=
            Nat.lt_of_le_of_ne (Nat.le_of_lt_succ hb) hbc
          rw [List.getElem?_set_ne (Ne.symm hac)] at haf
          rw [List.getElem?_set_ne (Ne.symm hbc)] at hbg
          exact hdist a b f g haf hbg halt hblt hkeq
    · rw [lsm_add_of_scan_none_full value hs hlt]
      exact ⟨hlen, hcnt, hocc, hdist⟩

lemma tableInv_run (t : LSMTree) (ops : List (Int × Int)) (h : tableInv t) :
    tableInv (run t ops) := by
  induction ops generalizing t with
  | nil => exact h
  | cons op ops ih => exact ih _ (tableInv_add _ op.1 op.2 h)

/-! ### The claims -/

/-- C1: the "table full, key new" rejection is surfaced synchronously to
the immediate caller of `lsm_add` as an observable signal (the `Bool`
component of the embedded result, modelling the stderr diagnostic the C
code emits before returning), and it is raised exactly when the table is
full and the key is not among the occupied entries — never silently
dropped, and never fatal: `lsm_add` is a total function that signals and
returns rather than aborting. -/
theorem upsert_rejection_signal (t : LSMTree) (key value : Int) :
    (lsm_add t key value).snd = true ↔
      ((∀ i, i < t.memtable_count → matchAt t key i = false) ∧
        t.memtable_max ≤ t.memtable_count) := by
  constructor
  · intro h
    cases hs : scan (t.memtable.take t.memtable_count) key with
    | some p =>
      obtain ⟨i, e⟩ := p
      rw [lsm_add_of_scan_some value hs] at h
      exact Bool.noConfusion h
    | none =>
      by_cases hlt : t.memtable_count < t.memtable_max
      · rw [lsm_add_of_scan_none_lt value hs hlt] at h
        exact Bool.noConfusion h
      · exact ⟨(scan_take_eq_none_iff t key).mp hs, Nat.le_of_not_lt hlt⟩
  · rintro ⟨hnone, hfull⟩
    rw [lsm_add_of_scan_none_full value
      ((scan_take_eq_none_iff t key).mpr hnone) (Nat.not_lt.mpr hfull)]

theorem upsert_rejection_signal_witness :
    (lsm_add sample_full 3 30).snd = true :=
  (upsert_rejection_signal sample_full 3 30).mpr (by decide)

/-- C2: if the count equals the capacity and no occupied entry among the
first `count` slots has the key, `lsm_add` leaves the table completely
unchanged — count, capacity and every entry. -/
theorem upsert_full_new_key_unchanged (t : LSMTree) (key value : Int)
    (hfull : t.memtable_count = t.memtable_max)
    (habs : ∀ i, i < t.memtable_count → matchAt t key i = false) :
    (lsm_add t key value).fst = t := by
  rw [lsm_add_of_scan_none_full value
    ((scan_take_eq_none_iff t key).mpr habs)
    (by rw [hfull]; exact lt_irrefl _)]

theorem upsert_full_new_key_unchanged_witness :
    (sample_full.memtable_count = sample_full.memtable_max ∧
      ∀ i, i < sample_full.memtable_count → matchAt sample_full 3 i = false) ∧
    (lsm_add sample_full 3 30).fst = sample_full :=
  ⟨⟨rfl, by decide⟩,
    upsert_full_new_key_unchanged sample_full 3 30 rfl (by decide)⟩

/-- C3: the table invariant — `0 ≤ count ≤ capacity`, every slot below
`count` occupied, every slot from `count` on unoccupied, occupied keys
pairwise distinct — holds after `lsm_init`, is preserved by every
`lsm_add` call, and hence holds in every state reachable by a sequence of
upserts from an initialized table. -/
theorem table_invariant (mem0 : List Entry) (t : LSMTree)
    (key value : Int) (ops : List (Int × Int)) :
    tableInv (lsm_init mem0) ∧
    (tableInv t → tableInv (lsm_add t key value).fst) ∧
    tableInv (run (lsm_init mem0) ops) :=
  ⟨tableInv_init mem0, tableInv_add t key value,
    tableInv_run _ _ (tableInv_init mem0)⟩

theorem table_invariant_witness :
    tableInv (lsm_add (lsm_init [⟨5, 6, true⟩]) 1 10).fst :=
  (table_invariant [⟨5, 6, true⟩] (lsm_init [⟨5, 6, true⟩]) 1 10 []).2.1
    ((table_invariant [⟨5, 6, true⟩] (lsm_init [⟨5, 6, true⟩]) 1 10 []).1)

/-- C4: when some occupied slot among the first `count` slots has the
key, `lsm_add` overwrites the `value` of the first such slot (index
ascending) in place — its key and occupied flag survive — and changes
nothing else: count, capacity, length and all other slots are unchanged,
and no rejection is signalled. -/
theorem upsert_updates_first_match_in_place (t : LSMTree)
    (key value : Int) (i : Nat)
    (hi : i < t.memtable_count)
    (hm : matchAt t key i = true)
    (hfirst : ∀ j, j < i → matchAt t key j = false) :
    ∃ e, t.memtable[i]? = some e ∧ e.in_use = true ∧ e.key = key ∧
      (lsm_add t key value).fst.memtable_count = t.memtable_count ∧
      (lsm_add t key value).fst.memtable_max = t.memtable_max ∧
      (lsm_add t key value).fst.memtable.length = t.memtable.length ∧
      (lsm_add t key value).fst.memtable[i]? =
        some { key := e.key, value := value, in_use := e.in_use } ∧
      (∀ j, j ≠ i → (lsm_add t key value).fst.memtable[j]? =
        t.memtable[j]?) ∧
      (lsm_add t key value).snd = false := by
  obtain ⟨e, he, hcond⟩ := matchAt_eq_true hm
  obtain ⟨hin, hkey⟩ := cond_true_elim hcond
  have hs := scan_take_eq_some_of_first hi he hcond hfirst
  rw [lsm_add_of_scan_some value hs]
  exact ⟨e, he, hin, hkey, rfl, rfl, length_upd_value _ _ _,
    getElem?_upd_value_self value he,
    fun j hj => getElem?_upd_value_ne _ j value hj, rfl⟩

theorem upsert_updates_first_match_in_place_witness :
    ∃ e, sample_full.memtable[1]? = some e ∧ e.in_use = true ∧ e.key = 2 ∧
      (lsm_add sample_full 2 25).fst.memtable_count =
        sample_full.memtable_count ∧
      (lsm_add sample_full 2 25).fst.memtable_max =
        sample_full.memtable_max ∧
      (lsm_add sample_full 2 25).fst.memtable.length =
        sample_full.memtable.length ∧
      (lsm_add sample_full 2 25).fst.memtable[1]? =
        some { key := e.key, value := 25, in_use := e.in_use } ∧
      (∀ j, j ≠ 1 → (lsm_add sample_full 2 25).fst.memtable[j]? =
        sample_full.memtable[j]?) ∧
      (lsm_add sample_full 2 25).snd = false :=
  upsert_updates_first_match_in_place sample_full 2 25 1 (by decide)
    (by decide) (by decide)

/-- C5: when no occupied slot among the first `count` slots has the key
and `count < capacity`, `lsm_add` writes the new entry at index `count`
with the given key and value and the occupied flag set, increments the
count, and leaves every other slot unchanged; no rejection is
signalled. -/
theorem upsert_appends_new_key (t : LSMTree) (key value : Int)
    (hlen : t.memtable.length = t.memtable_max)
    (habs : ∀ i, i < t.memtable_count → matchAt t key i = false)
    (hlt : t.memtable_count < t.memtable_max) :
    (lsm_add t key value).fst.memtable_count = t.memtable_count + 1 ∧
    (lsm_add t key value).fst.memtable_max = t.memtable_max ∧
    (lsm_add t key value).fst.memtable.length = t.memtable.length ∧
    (lsm_add t key value).fst.memtable[t.memtable_count]? =
      some { key := key, value := value, in_use := true } ∧
    (∀ j, j ≠ t.memtable_count →
      (lsm_add t key value).fst.memtable[j]? = t.memtable[j]?) ∧
    (lsm_add t key value).snd = false := by
  rw [lsm_add_of_scan_none_lt value
    ((scan_take_eq_none_iff t key).mpr habs) hlt]
  refine ⟨rfl, rfl, List.length_set _ _ _, ?_, ?_, rfl⟩
  · exact List.getElem?_set_eq_of_lt _ (by rw [hlen]; exact hlt)
  · intro j hj
    exact List.getElem?_set_ne (Ne.symm hj)

theorem upsert_appends_new_key_witness :
    (lsm_add sample_half 5 50).fst.memtable_count =
      sample_half.memtable_count + 1 ∧
    (lsm_add sample_half 5 50).fst.memtable_max =
      sample_half.memtable_max ∧
    (lsm_add sample_half 5 50).fst.memtable.length =
      sample_half.memtable.length ∧
    (lsm_add sample_half 5 50).fst.memtable[sample_half.memtable_count]? =
      some { key := 5, value := 50, in_use := true } ∧
    (∀ j, j ≠ sample_half.memtable_count →
      (lsm_add sample_half 5 50).fst.memtable[j]? =
        sample_half.memtable[j]?) ∧
    (lsm_add sample_half 5 50).snd = false :=
  upsert_appends_new_key sample_half 5 50 (by decide) (by decide) (by decide)

/-- C6: `lsm_get` scans the first `count` slots in index-ascending order:
if some occupied slot matches, it returns `found` together with the value
of the first matching slot; otherwise it returns `not found` and the
caller's output location keeps its previous contents.  It never modifies
the table: in this embedding `lsm_get` is a pure function of the table,
matching the C code, which takes only the read lock and performs no
store to the table. -/
theorem lookup_linear_scan (t : LSMTree) (key out : Int) :
    (∀ i, i < t.memtable_count → matchAt t key i = true →
      (∀ j, j < i → matchAt t key j = false) →
      ∃ e, t.memtable[i]? = some e ∧ e.in_use = true ∧ e.key = key ∧
        lsm_get t key out = (true, e.value)) ∧
    ((∀ i, i < t.memtable_count → matchAt t key i = false) →
      lsm_get t key out = (false, out)) := by
  constructor
  · intro i hi hm hfirst
    obtain ⟨e, he, hcond⟩ := matchAt_eq_true hm
    obtain ⟨hin, hkey⟩ := cond_true_elim hcond
    exact ⟨e, he, hin, hkey,
      lsm_get_of_scan_some out (scan_take_eq_some_of_first hi he hcond hfirst)⟩
  · intro habs
    exact lsm_get_of_scan_none out ((scan_take_eq_none_iff t key).mpr habs)

theorem lookup_linear_scan_witness :
    ∃ e, sample_full.memtable[0]? = some e ∧ e.in_use = true ∧ e.key = 1 ∧
      lsm_get sample_full 1 0 = (true, e.value) :=
  (lookup_linear_scan sample_full 1 0).1 0 (by decide) (by decide)
    (fun j hj => absurd hj (Nat.not_lt_zero j))

/-- C7 as stated is false on the code: in the reachable state built by
`lsm_init` with capacity 1 followed by `upsert(1, 10)`, the call
`upsert(2, 20)` is rejected (table full, key 2 new), and the `lookup(2)`
issued right after it — with no intervening upsert for key 2 — returns
"not found" with the output location untouched, not "found 20". -/
theorem read_after_write_fails_on_reject :
    lsm_get (lsm_add (lsm_add (lsm_init [⟨5, 6, true⟩]) 1 10).fst 2 20).fst
        2 0 = (false, 0) ∧
    lsm_get (lsm_add (lsm_add (lsm_init [⟨5, 6, true⟩]) 1 10).fst 2 20).fst
        2 0 ≠ (true, 20) := by
  decide

/-- C7 amended: for every table whose backing array has exactly
`capacity` slots, if `upsert(k, v)` is not rejected (i.e. the key was
already present or the table was not full), then a `lookup(k)` issued
right after it, with no intervening upsert, returns `found` with
value `v`. -/
theorem read_after_write (t : LSMTree) (key value out : Int)
    (hlen : t.memtable.length = t.memtable_max)
    (hok : (lsm_add t key value).snd = false) :
    lsm_get (lsm_add t key value).fst key out = (true, value) := by
  cases hs : scan (t.memtable.take t.memtable_count) key with
  | some p =>
    obtain ⟨i, e⟩ := p
    obtain ⟨hie, hcond, hmin⟩ := scan_eq_some hs
    obtain ⟨hi, hie'⟩ := getElem?_take_some hie
    rw [lsm_add_of_scan_some value hs]
    have hs' : scan ((upd_value t.memtable i value).take t.memtable_count)
        key = some (i, { e with value := value }) := by
      apply scan_first
      · rw [List.getElem?_take_of_lt hi]
        exact getElem?_upd_value_self value hie'
      · exact hcond
      · intro j f hj hjf
        obtain ⟨hjc, hjf'⟩ := getElem?_take_some hjf
        rw [getElem?_upd_value_ne _ j value (Nat.ne_of_lt hj)] at hjf'
        exact hmin j f hj (by rw [List.getElem?_take_of_lt hjc]; exact hjf')
    exact lsm_get_of_scan_some
      (t := { t with memtable := upd_value t.memtable i value }) out hs'
  | none =>
    by_cases hlt : t.memtable_count < t.memtable_max
    · rw [lsm_add_of_scan_none_lt value hs hlt]
      have hcl : t.memtable_count < t.memtable.length := by
        rw [hlen]; exact hlt
      have hs' : scan
          ((t.memtable.set t.memtable_count
              { key := key, value := value, in_use := true }).take
            (t.memtable_count + 1)) key =
          some (t.memtable_count,
            { key := key, value := value, in_use := true }) := by
        apply scan_first
        · rw [List.getElem?_take_of_lt (Nat.lt_succ_self _)]
          exact List.getElem?_set_eq_of_lt _ hcl
        · simp
        · intro j f hj hjf
          obtain ⟨-, hjf'⟩ := getElem?_take_some hjf
          rw [List.getElem?_set_ne (Ne.symm (Nat.ne_of_lt hj))] at hjf'
          exact (scan_eq_none_iff _ _).mp hs j f
            (by rw [List.getElem?_take_of_lt hj]; exact hjf')
      exact lsm_get_of_scan_some
        (t := { t with
          memtable :=
            t.memtable.set t.memtable_count
              { key := key, value := value, in_use := true }
          memtable_count := t.memtable_count + 1 }) out hs'
    · rw [lsm_add_of_scan_none_full value hs hlt] at hok
      exact Bool.noConfusion hok

theorem read_after_write_witness :
    lsm_get (lsm_add sample_half 5 50).fst 5 0 = (true, 50) :=
  read_after_write sample_half 5 50 0 (by decide) (by decide)

/-- C8: the concrete sequential scenario from the specification:
`init(capacity=2)` (on a fresh allocation holding arbitrary garbage),
then `upsert(1, 10)` gives count 1, `upsert(2, 20)` gives count 2,
`upsert(3, 30)` is rejected with the table unchanged and count still 2,
`lookup(1)` returns found 10, and `lookup(3)` returns not found. -/
theorem example_scenario :
    demo1.fst.memtable_count = 1 ∧
    demo2.fst.memtable_count = 2 ∧
    demo3.snd = true ∧
    demo3.fst.memtable_count = 2 ∧
    demo3.fst = demo2.fst ∧
    lsm_get demo3.fst 1 0 = (true, 10) ∧
    lsm_get demo3.fst 3 0 = (false, 0) := by
  decide

/-- C10: when no occupied slot among the first `count` slots matches the
key, `lsm_get` returns 0 (not found) and does not write through the
output pointer: the caller's output location holds exactly the value it
held before the call. -/
theorem lookup_miss_no_out_write (t : LSMTree) (key out : Int)
    (habs : ∀ i, i < t.memtable_count → matchAt t key i = false) :
    lsm_get t key out = (false, out) :=
  lsm_get_of_scan_none out ((scan_take_eq_none_iff t key).mpr habs)

theorem lookup_miss_no_out_write_witness :
    lsm_get sample_half 9 7 = (false, 7) :=
  lookup_miss_no_out_write sample_half 9 7 (by decide)
